import Mathlib

/-!
# Verification of the payroll record parser (`src/app.py`)

A shallow embedding of `parse_payroll_data` and `clean_currency` from
`src/app.py`, together with theorems checking the natural-language
specification against this code.

Modelling conventions:
* Python strings are modelled as `List Char` (ASCII inputs); `str.strip()`
  and the regex class `\s` both use the six ASCII whitespace characters.
* Python `float` values are idealised as exact rationals (`ℚ`), with the
  IEEE special values `inf`, `-inf`, `nan` kept as separate constructors;
  `float(str)` parsing and `'{:,.2f}'` formatting are modelled over this
  idealisation (decimal rounding is round-half-to-even).
* The regexes of the source are compiled by hand into deterministic
  matching functions; each is annotated with the regex it implements.
* `pandas` operations are modelled by their documented list semantics:
  `Series.unique()` keeps first-occurrence order, `groupby(...).sum()`
  sums each key's values, row filtering preserves row order.
-/

namespace Extract

abbrev Chars := List Char

/-- The six ASCII whitespace characters: the characters stripped by
`str.strip()` and matched by the regex class `\s` (for ASCII text). -/
def isSpaceCh (c : Char) : Bool :=
  c == ' ' || c == '\t' || c == '\n' || c == '\r' || c == '\x0b' || c == '\x0c'

/-- Python `str.strip()`: drop whitespace from both ends. -/
def pyStrip (s : Chars) : Chars :=
  ((s.dropWhile isSpaceCh).reverse.dropWhile isSpaceCh).reverse

/-- Python `str.split(sep)` for a one-character separator:
`"".split('\n') = [""]`, and a trailing separator yields a final `""`. -/
def splitOn (sep : Char) : Chars → List Chars
  | [] => [[]]
  | c :: rest =>
    if c = sep then [] :: splitOn sep rest
    else
      match splitOn sep rest with
      | [] => [[c]]
      | h :: t => (c :: h) :: t

/-- Python `str.replace(c, '')`: remove every occurrence of the character. -/
def removeChar (c : Char) (s : Chars) : Chars := s.filter (fun d => d != c)

/-- Characters matched by the regex class `[\d,]`. -/
def digitsCommas (c : Char) : Bool := c.isDigit || c == ','

/-- `re.match(r"\d{4}-\d{2}-\d{2}", s)`: the string starts with an
ISO-date-shaped token (a prefix match, no anchoring at the end). -/
def isoLead : Chars → Bool
  | a :: b :: c :: d :: '-' :: e :: f :: '-' :: g :: h :: _ =>
    a.isDigit && b.isDigit && c.isDigit && d.isDigit &&
      e.isDigit && f.isDigit && g.isDigit && h.isDigit
  | _ => false

/-- `date_pattern.match(line)` for `date_pattern = r'"(\d{4}-\d{2}-\d{2})"'`:
the line starts with a double-quoted ISO-date-shaped token. -/
def quotedDateLead : Chars → Bool
  | '"' :: a :: b :: c :: d :: '-' :: e :: f :: '-' :: g :: h :: '"' :: _ =>
    a.isDigit && b.isDigit && c.isDigit && d.isDigit &&
      e.isDigit && f.isDigit && g.isDigit && h.isDigit
  | _ => false

/-- `re.match(r"R\s*[\d,]+\.\d{2}", s)`: an `R`, optional whitespace, a
non-empty run of digits/commas, a dot and two digits, as a prefix of `s`.
The run boundary is deterministic because `[\d,]` and `\.` are disjoint. -/
def curLead (s : Chars) : Bool :=
  match s with
  | 'R' :: rest =>
    let r1 := rest.dropWhile isSpaceCh
    match r1.takeWhile digitsCommas, r1.dropWhile digitsCommas with
    | [], _ => false
    | _ :: _, '.' :: x :: y :: _ => x.isDigit && y.isDigit
    | _ :: _, _ => false
  | _ => false

/-- `[A-Z][a-z]+`: consume one uppercase letter and a non-empty maximal run
of lowercase letters, returning the rest.  The maximal run is the only
candidate because the regex continues with `-`, `,` or end of word. -/
def capWord : Chars → Option Chars
  | c :: rest =>
    if c.isUpper then
      if (rest.takeWhile Char.isLower).isEmpty then none
      else some (rest.dropWhile Char.isLower)
    else none
  | [] => none

/-- The surname part `[A-Z][a-z]+(?:-\s?[A-Z][a-z]+)?` of `name_pattern`.
If the optional hyphenated part fails, falling back to the plain word
cannot help (the next pattern character `,` never equals `-`). -/
def afterSurname (s : Chars) : Option Chars :=
  match capWord s with
  | none => none
  | some r1 =>
    match r1 with
    | '-' :: r2 =>
      match r2 with
      | c :: r3 => if isSpaceCh c then capWord r3 else capWord r2
      | [] => none
    | _ => some r1

/-- `name_pattern.match(line)` succeeded, for
`name_pattern = r"^([A-Z][a-z]+(?:-\s?[A-Z][a-z]+)?, [A-Z].*)$"` with
`re.MULTILINE`: after the surname comes `", "`, an uppercase letter, and
`.*$` (which always succeeds: `.` runs to the next newline or the end,
where the multiline `$` matches). -/
def nameMatch (s : Chars) : Bool :=
  match afterSurname s with
  | some (',' :: ' ' :: c :: _) => c.isUpper
  | _ => false

/-- `name_match.group(1).strip()`: group 1 spans from the start to where
the multiline `$` matched, i.e. up to the first newline or the end. -/
def matchedName (s : Chars) : Chars :=
  pyStrip (s.takeWhile (fun c => c != '\n'))

/-- The field list of a candidate data line:
`cleaned_line = line.replace('"', '').replace('\n', '').strip()` and
`fields = [f.strip() for f in cleaned_line.split(',') if f.strip()]`. -/
def mkFields (line : Chars) : List Chars :=
  ((splitOn ',' (pyStrip (removeChar '\n' (removeChar '"' line)))).map pyStrip).filter
    (fun f => !f.isEmpty)

/-- The data-line branch of the scan loop: on a line starting with a quoted
ISO date, split into fields; with at least 10 fields, take `fields[0]` as
the date and `fields[8]` as gross remuneration, and keep them when the
currency and date shape checks (prefix matches) pass. -/
def dataMatch (line : Chars) : Option (Chars × Chars) :=
  if quotedDateLead line then
    if 10 ≤ (mkFields line).length then
      match (mkFields line).get? 0, (mkFields line).get? 8 with
      | some f0, some f8 =>
        if curLead f8 && isoLead f0 then some (f0, f8) else none
      | _, _ => none
    else none
  else none

/-- One extracted payroll row: the dictionaries appended to `all_data`
(and equally the rows of the final `DataFrame`). -/
structure PayRow where
  employeeName : Chars
  date : Chars
  gross : Chars
deriving DecidableEq

/-- The initial `current_employee = "Unknown Employee"`. -/
def unknownEmployee : Chars := "Unknown Employee".data

/-- The scan loop of `parse_payroll_data`: strip each line, update the
current employee on a name match (and `continue`), otherwise emit a row
when the data-line branch fires. -/
def scanLines : List Chars → Chars → List PayRow
  | [], _ => []
  | l :: ls, cur =>
    let line := pyStrip l
    if nameMatch line then scanLines ls (matchedName line)
    else
      match dataMatch line with
      | some (d, g) => { employeeName := cur, date := d, gross := g } :: scanLines ls cur
      | none => scanLines ls cur

/-- The `all_data` list accumulated by the scan (empty for `None` or `""`
input, which `parse_payroll_data` returns early on). -/
def allData (raw : Option Chars) : List PayRow :=
  match raw with
  | none => []
  | some r => if r.isEmpty then [] else scanLines (splitOn '\n' r) unknownEmployee

/-! ## Python `float` values and `float(str)` parsing -/

/-- A Python `float`, idealised: an exact rational for finite values, plus
the IEEE special values. -/
inductive PyFloat where
  | finite (q : ℚ)
  | pinf
  | ninf
  | nan
deriving DecidableEq

/-- The rest of a digit run with underscore separators (`(_?\d)*` with the
underscore required to sit between two digits): returns the digits read
(underscores dropped) and the remaining input. -/
def udRest : Chars → Chars × Chars
  | '_' :: c :: r =>
    if c.isDigit then
      let p := udRest r
      (c :: p.1, p.2)
    else ([], '_' :: c :: r)
  | c :: r =>
    if c.isDigit then
      let p := udRest r
      (c :: p.1, p.2)
    else ([], c :: r)
  | [] => ([], [])

/-- A digit run `\d(_?\d)*` as accepted inside Python float literals:
at least one digit, underscores allowed only between digits. -/
def parseUDigits (s : Chars) : Option (Chars × Chars) :=
  match s with
  | c :: r =>
    if c.isDigit then
      let p := udRest r
      some (c :: p.1, p.2)
    else none
  | [] => none

/-- The numeric value of a list of decimal digit characters. -/
def digitsVal (ds : Chars) : ℕ :=
  List.foldl (fun a c => 10 * a + (c.toNat - 48)) 0 ds

/-- Value of `sign intdigits . fracdigits` as an exact rational. -/
def mantVal (sgn : ℤ) (ids fds : Chars) : ℚ :=
  (sgn : ℚ) * ((digitsVal ids : ℚ) + (digitsVal fds : ℚ) / (10 : ℚ) ^ fds.length)

/-- ASCII lower-casing, for the case-insensitive `inf`/`nan` forms. -/
def lcs (s : Chars) : Chars := s.map Char.toLower

/-- The exponent tail `(e|E)(+|-)?digits` of a float literal, applied after
the mantissa; the whole input must be consumed. -/
def pyExpTail (sgn : ℤ) (ids fds : Chars) (r : Chars) : Option PyFloat :=
  let p : ℤ × Chars :=
    match r with
    | '+' :: rr => (1, rr)
    | '-' :: rr => (-1, rr)
    | _ => (1, r)
  match parseUDigits p.2 with
  | some (eds, r2) =>
    if r2.isEmpty then
      let e : ℤ := p.1 * (digitsVal eds : ℤ)
      let scale : ℚ := if 0 ≤ e then (10 : ℚ) ^ e.toNat else 1 / (10 : ℚ) ^ (-e).toNat
      some (.finite (mantVal sgn ids fds * scale))
    else none
  | none => none

/-- After the mantissa of a float literal: either end of input, or an
exponent part. -/
def pyAfterMant (sgn : ℤ) (ids fds : Chars) (rest : Chars) : Option PyFloat :=
  match rest with
  | [] => some (.finite (mantVal sgn ids fds))
  | 'e' :: r => pyExpTail sgn ids fds r
  | 'E' :: r => pyExpTail sgn ids fds r
  | _ => none

/-- The optional leading sign of a float literal: the sign value and the
remaining input. -/
def pySign (t : Chars) : ℤ × Chars :=
  match t with
  | '+' :: r => (1, r)
  | '-' :: r => (-1, r)
  | _ => (1, t)

/-- Python `float(str)`: strip whitespace, optional sign, then the
case-insensitive named values `inf`/`infinity`/`nan` or a decimal literal
`{d+[.d*] | .d+}[(e|E)[sign]d+]` with underscores allowed between digits.
`none` models the `ValueError` raised on anything else. -/
def pythonFloat (s : Chars) : Option PyFloat :=
  let t := pyStrip s
  let p : ℤ × Chars := pySign t
  let low := lcs p.2
  if low = "inf".data then some (if p.1 = 1 then .pinf else .ninf)
  else if low = "infinity".data then some (if p.1 = 1 then .pinf else .ninf)
  else if low = "nan".data then some .nan
  else
    match parseUDigits p.2 with
    | some (ids, r1) =>
      match r1 with
      | '.' :: r2 =>
        match parseUDigits r2 with
        | some (fds, r3) => pyAfterMant p.1 ids fds r3
        | none => pyAfterMant p.1 ids [] r2
      | _ => pyAfterMant p.1 ids [] r1
    | none =>
      match p.2 with
      | '.' :: r2 =>
        match parseUDigits r2 with
        | some (fds, r3) => pyAfterMant p.1 [] fds r3
        | none => none
      | _ => none

/-- `clean_currency` from `src/app.py`:
`float(value.replace('R', '').replace(',', '').strip())` inside
`try: ... except: return 0.0`. -/
def clean_currency (value : Chars) : PyFloat :=
  match pythonFloat (pyStrip (removeChar ',' (removeChar 'R' value))) with
  | some f => f
  | none => .finite 0

/-! ## Summation and `'R {:,.2f}'` formatting -/

/-- Addition of Python floats (IEEE semantics on the special values). -/
def PyFloat.add : PyFloat → PyFloat → PyFloat
  | .nan, _ => .nan
  | _, .nan => .nan
  | .pinf, .ninf => .nan
  | .ninf, .pinf => .nan
  | .pinf, _ => .pinf
  | _, .pinf => .pinf
  | .ninf, _ => .ninf
  | _, .ninf => .ninf
  | .finite a, .finite b => .finite (a + b)

/-- `pandas` column sum of float values (`groupby(...).sum()`). -/
def sumPyF (l : List PyFloat) : PyFloat := List.foldl PyFloat.add (.finite 0) l

/-- Round-half-to-even to the nearest integer, the decimal rounding used
when formatting a float with a fixed number of places. -/
def rne (q : ℚ) : ℤ :=
  let f := Int.floor q
  let r := q - (f : ℚ)
  if r < 1 / 2 then f
  else if 1 / 2 < r then f + 1
  else if f % 2 = 0 then f else f + 1

/-- The decimal digit character for `n < 10`. -/
def digitChar (n : ℕ) : Char := Char.ofNat (48 + n)

/-- Insert a comma after every three characters of a little-endian digit
list: the thousands separators of `'{:,}'`. -/
def insertCommas : Chars → Chars
  | a :: b :: c :: d :: rest => a :: b :: c :: ',' :: insertCommas (d :: rest)
  | l => l

/-- The comma-grouped decimal rendering of a natural number. -/
def groupedDigits (m : ℕ) : Chars :=
  if m = 0 then ['0']
  else (insertCommas ((Nat.digits 10 m).map (fun d => digitChar d))).reverse

/-- Two decimal places, zero-padded (`k < 100`). -/
def pad2ch (k : ℕ) : Chars :=
  if k < 10 then ['0', digitChar k] else [digitChar (k / 10), digitChar (k % 10)]

/-- `'{:,.2f}'.format(q)` for a finite value: sign, comma-grouped integer
part, dot, two decimal digits of the half-even rounding to cents. -/
def formatFin (q : ℚ) : Chars :=
  let n : ℕ := (rne (|q| * 100)).toNat
  (if q < 0 then ['-'] else []) ++ groupedDigits (n / 100) ++ '.' :: pad2ch (n % 100)

/-- `'R {:,.2f}'.format(v)`: the currency rendering of a total. -/
def formatCurrency (v : PyFloat) : Chars :=
  'R' :: ' ' ::
    (match v with
     | .finite q => formatFin q
     | .pinf => "inf".data
     | .ninf => "-inf".data
     | .nan => "nan".data)

/-! ## The full parse: grouping, totals, output assembly -/

/-- `pandas` `Series.unique()`: the distinct values in first-occurrence
order. -/
def uniqueKeep : List Chars → List Chars
  | [] => []
  | x :: xs => x :: (uniqueKeep xs).filter (fun y => y != x)

/-- `"TOTAL for " + name`. -/
def totalFor (n : Chars) : Chars := "TOTAL for ".data ++ n

/-- The position of the first occurrence of `a` in `l` (the length of the
prefix before it); used to state first-occurrence ordering. -/
def firstIdx (l : List Chars) (a : Chars) : ℕ := (l.takeWhile (fun y => y != a)).length

/-- The rows of one employee, in scan order:
`final_df[final_df['Employee Name'] == name]`. -/
def grpRows (raw : Option Chars) (n : Chars) : List PayRow :=
  (allData raw).filter (fun row => row.employeeName == n)

/-- The synthetic total row appended after one employee's records: the
grouped sum of the cleaned gross values, formatted back to currency. -/
def totalRow (raw : Option Chars) (n : Chars) : PayRow :=
  { employeeName := totalFor n
    date := []
    gross := formatCurrency (sumPyF ((grpRows raw n).map (fun row => clean_currency row.gross))) }

/-- `parse_payroll_data` from `src/app.py`: `None` and `""` return an empty
result; otherwise scan the lines into `all_data`; an empty scan returns an
empty result; otherwise, for each distinct employee name in
first-occurrence order, that employee's rows followed by its total row. -/
def parse_payroll_data (raw : Option Chars) : List PayRow :=
  match raw with
  | none => []
  | some r =>
    if r.isEmpty then []
    else
      let ad := scanLines (splitOn '\n' r) unknownEmployee
      if ad.isEmpty then []
      else
        (uniqueKeep (ad.map (fun row => row.employeeName))).flatMap
          (fun n => grpRows (some r) n ++ [totalRow (some r) n])

/-! ## Spec-side definitions

These follow the specification's words (not the code) and exist to be
compared with the code-side definitions above. -/

/-- One `re.findall` step for `R\s*[\d,]+\.\d{2}`: when the input starts
with a currency-shaped token, the input after that token. -/
def curMatchTail (s : Chars) : Option Chars :=
  match s with
  | 'R' :: rest =>
    let r1 := rest.dropWhile isSpaceCh
    match r1.takeWhile digitsCommas, r1.dropWhile digitsCommas with
    | [], _ => none
    | _ :: _, '.' :: x :: y :: tail => if x.isDigit && y.isDigit then some tail else none
    | _ :: _, _ => none
  | _ => none

/-- Fuelled scan counting non-overlapping currency-shaped matches left to
right (`re.findall` semantics); a match consumes at least one character,
so the input's length is enough fuel. -/
def countCurAux : ℕ → Chars → ℕ
  | 0, _ => 0
  | _, [] => 0
  | fuel + 1, c :: rest =>
    match curMatchTail (c :: rest) with
    | some tail => 1 + countCurAux fuel tail
    | none => countCurAux fuel rest

/-- The number of currency-shaped tokens found scanning the whole string. -/
def countCur (s : Chars) : ℕ := countCurAux s.length s

/-- Modelled from the spec (Strategy C): a line qualifies as a data line
iff it starts with an ISO-date-shaped token and, after stripping quote
characters and embedded line breaks, scanning it for currency-shaped
tokens yields at least two matches. -/
def specDataLine (line : Chars) : Bool :=
  isoLead line && decide (2 ≤ countCur (pyStrip (removeChar '\n' (removeChar '"' line))))

/-- Modelled from the spec: the string is entirely of the currency shape
`R` + whitespace + digits/commas + `.` + exactly two decimal digits, with
no extra trailing characters. -/
def fullCurrencyShape (s : Chars) : Bool :=
  match s with
  | 'R' :: rest =>
    let r1 := rest.dropWhile isSpaceCh
    match r1.takeWhile digitsCommas, r1.dropWhile digitsCommas with
    | [], _ => false
    | _ :: _, '.' :: x :: y :: tail => x.isDigit && y.isDigit && tail.isEmpty
    | _ :: _, _ => false
  | _ => false

/-- Modelled from the spec: the string is entirely of the `YYYY-MM-DD`
ISO date shape. -/
def fullIsoShape (s : Chars) : Bool := isoLead s && s.length == 10

/-! ## Exception-tracking variant of the parse

The same computation with every Python operation that can raise modelled
in `Except`: the `fields[0]`/`fields[8]` index accesses and the
`totals[...].iloc[0]` lookup.  (`float(...)` sits inside a
`try/except` in the source, so `clean_currency` is already total.) -/

def dataMatchE (line : Chars) : Except String (Option (Chars × Chars)) :=
  if quotedDateLead line then
    if 10 ≤ (mkFields line).length then
      match (mkFields line).get? 0, (mkFields line).get? 8 with
      | some f0, some f8 =>
        Except.ok (if curLead f8 && isoLead f0 then some (f0, f8) else none)
      | _, _ => Except.error "IndexError"
    else Except.ok none
  else Except.ok none

def scanLinesE : List Chars → Chars → Except String (List PayRow)
  | [], _ => Except.ok []
  | l :: ls, cur =>
    let line := pyStrip l
    if nameMatch line then scanLinesE ls (matchedName line)
    else
      match dataMatchE line with
      | Except.error e => Except.error e
      | Except.ok none => scanLinesE ls cur
      | Except.ok (some (d, g)) =>
        match scanLinesE ls cur with
        | Except.error e => Except.error e
        | Except.ok rest => Except.ok ({ employeeName := cur, date := d, gross := g } :: rest)

/-- `totals[totals['Employee Name'] == name].iloc[0]`: `.iloc[0]` raises
when the name is absent from the totals table. -/
def lookupTotalE (totals : List (Chars × PyFloat)) (n : Chars) : Except String PyFloat :=
  match totals.find? (fun p => p.1 == n) with
  | some p => Except.ok p.2
  | none => Except.error "IndexError"

def parseE (raw : Option Chars) : Except String (List PayRow) :=
  match raw with
  | none => Except.ok []
  | some r =>
    if r.isEmpty then Except.ok []
    else
      match scanLinesE (splitOn '\n' r) unknownEmployee with
      | Except.error e => Except.error e
      | Except.ok ad =>
        if ad.isEmpty then Except.ok []
        else
          let names := uniqueKeep (ad.map (fun row => row.employeeName))
          let totals := names.map (fun n =>
            (n, sumPyF ((ad.filter (fun row => row.employeeName == n)).map
                  (fun row => clean_currency row.gross))))
          names.foldr
            (fun n acc =>
              match lookupTotalE totals n, acc with
              | Except.ok t, Except.ok rows =>
                Except.ok ((ad.filter (fun row => row.employeeName == n)) ++
                  { employeeName := totalFor n, date := [], gross := formatCurrency t } :: rows)
              | Except.error e, _ => Except.error e
              | _, Except.error e => Except.error e)
            (Except.ok [])

/-! ## Theorems -/

/-! ### Character-class facts -/

theorem isDigit_toNat (c : Char) (h : c.isDigit = true) :
    48 ≤ c.val.toNat ∧ c.val.toNat ≤ 57 := by
  simp only [Char.isDigit, Bool.and_eq_true, decide_eq_true_eq] at h
  exact ⟨h.1, h.2⟩

theorem isUpper_toNat (c : Char) (h : c.isUpper = true) :
    65 ≤ c.val.toNat ∧ c.val.toNat ≤ 90 := by
  simp only [Char.isUpper, Bool.and_eq_true, decide_eq_true_eq] at h
  exact ⟨h.1, h.2⟩

theorem isLower_toNat (c : Char) (h : c.isLower = true) :
    97 ≤ c.val.toNat ∧ c.val.toNat ≤ 122 := by
  simp only [Char.isLower, Bool.and_eq_true, decide_eq_true_eq] at h
  exact ⟨h.1, h.2⟩

theorem digit_not_upper (c : Char) (h : c.isDigit = true) : c.isUpper = false := by
  obtain ⟨-, h2⟩ := isDigit_toNat c h
  simp only [Char.isUpper, Bool.and_eq_false_iff, decide_eq_false_iff_not]
  left
  intro hge
  have h3 : (65 : ℕ) ≤ c.val.toNat := hge
  omega

theorem digit_ne_quote (c : Char) (h : c.isDigit = true) : c ≠ '"' := by
  rintro rfl
  exact absurd h (by decide)

theorem upper_ne_comma (c : Char) (h : c.isUpper = true) : (c != ',') = true := by
  simp only [bne_iff_ne, ne_eq]
  rintro rfl
  exact absurd h (by decide)

theorem lower_ne_comma (c : Char) (h : c.isLower = true) : (c != ',') = true := by
  simp only [bne_iff_ne, ne_eq]
  rintro rfl
  exact absurd h (by decide)

/-! ### Shape of the matchers -/

theorem isoLead_head (s : Chars) (h : isoLead s = true) :
    ∃ a t, s = a :: t ∧ a.isDigit = true := by
  unfold isoLead at h
  split at h
  · rename_i a b c d e f g hh rest
    simp only [Bool.and_eq_true] at h
    exact ⟨a, _, rfl, h.1.1.1.1.1.1.1⟩
  · exact absurd h (by simp)

theorem capWord_head_not_upper (a : Char) (rest : Chars) (h : a.isUpper = false) :
    capWord (a :: rest) = none := by
  simp [capWord, h]

theorem nameMatch_head_not_upper (a : Char) (rest : Chars) (h : a.isUpper = false) :
    nameMatch (a :: rest) = false := by
  unfold nameMatch afterSurname
  rw [capWord_head_not_upper a rest h]

theorem quotedDateLead_head_ne (a : Char) (rest : Chars) (h : a ≠ '"') :
    quotedDateLead (a :: rest) = false := by
  unfold quotedDateLead
  split
  · rename_i heq
    injection heq with h1 h2
    exact absurd h1 h
  · rfl

theorem dataMatch_head_ne_quote (a : Char) (rest : Chars) (h : a ≠ '"') :
    dataMatch (a :: rest) = none := by
  unfold dataMatch
  rw [quotedDateLead_head_ne a rest h]
  simp

theorem capWord_shape (s r1 : Chars) (h : capWord s = some r1) :
    ∃ u ls, s = u :: (ls ++ r1) ∧ u.isUpper = true ∧ ls ≠ [] ∧
      ∀ c ∈ ls, c.isLower = true := by
  cases s with
  | nil => simp [capWord] at h
  | cons c rest =>
    simp only [capWord] at h
    by_cases hu : c.isUpper = true
    · rw [if_pos hu] at h
      by_cases he : (rest.takeWhile Char.isLower).isEmpty = true
      · rw [if_pos he] at h
        exact absurd h (by simp)
      · rw [if_neg he] at h
        rw [Option.some.injEq] at h
        refine ⟨c, rest.takeWhile Char.isLower, ?_, hu, ?_, ?_⟩
        · rw [← h, List.takeWhile_append_dropWhile]
        · intro hne
          rw [hne] at he
          exact he rfl
        · intro c' hc'
          exact List.mem_takeWhile_imp hc'
    · rw [if_neg hu] at h
      exact absurd h (by simp)

theorem afterSurname_shape (line r : Chars) (h : afterSurname line = some r) :
    ∃ u ls rest, line = u :: (ls ++ rest) ∧ u.isUpper = true ∧ ls ≠ [] ∧
      (∀ c ∈ ls, c.isLower = true) ∧ (rest = r ∨ rest.head? = some '-') := by
  unfold afterSurname at h
  cases hc : capWord line with
  | none => rw [hc] at h; exact absurd h (by simp)
  | some r1 =>
    rw [hc] at h
    obtain ⟨u, ls, hline, hu, hne, hlow⟩ := capWord_shape line r1 hc
    split at h
    · rename_i heq
      cases heq
    · rename_i r1' heq
      rw [Option.some.injEq] at heq
      subst heq
      split at h
      · exact ⟨u, ls, _, hline, hu, hne, hlow, Or.inr rfl⟩
      · rw [Option.some.injEq] at h
        exact ⟨u, ls, _, hline, hu, hne, hlow, Or.inl h⟩

theorem nameMatch_shape (line : Chars) (h : nameMatch line = true) :
    ∃ u ls rest, line = u :: (ls ++ rest) ∧ u.isUpper = true ∧ ls ≠ [] ∧
      (∀ c ∈ ls, c.isLower = true) ∧
      (rest.head? = some ',' ∨ rest.head? = some '-') := by
  unfold nameMatch at h
  cases ha : afterSurname line with
  | none => rw [ha] at h; exact absurd h (by simp)
  | some r =>
    rw [ha] at h
    obtain ⟨u, ls, rest, hline, hu, hne, hlow, hr⟩ := afterSurname_shape line r ha
    refine ⟨u, ls, rest, hline, hu, hne, hlow, ?_⟩
    cases hr with
    | inr hh => exact Or.inr hh
    | inl hh =>
      subst hh
      split at h
      · rename_i c cs heq
        rw [Option.some.injEq] at heq
        rw [heq]
        exact Or.inl rfl
      · exact Bool.noConfusion h

theorem nameMatch_no_lower_surname (line : Chars)
    (hall : (line.takeWhile (fun c => c != ',')).all (fun c => !c.isLower) = true) :
    nameMatch line = false := by
  by_contra hb
  rw [Bool.not_eq_false] at hb
  obtain ⟨u, ls, rest, hline, hu, hne, hlow, -⟩ := nameMatch_shape line hb
  obtain ⟨c0, ls', rfl⟩ : ∃ c0 ls', ls = c0 :: ls' := by
    cases ls with
    | nil => exact absurd rfl hne
    | cons a b => exact ⟨a, b, rfl⟩
  have hc0 : c0.isLower = true := hlow c0 (List.mem_cons_self _ _)
  have hmem : c0 ∈ line.takeWhile (fun c => c != ',') := by
    have hu' : (u != ',') = true := upper_ne_comma u hu
    have hc0' : (c0 != ',') = true := lower_ne_comma c0 hc0
    rw [hline]
    simp only [List.cons_append, List.takeWhile_cons, hu', hc0', if_true]
    exact List.mem_cons_of_mem _ (List.mem_cons_self _ _)
  rw [List.all_eq_true] at hall
  have h2 := hall c0 hmem
  rw [hc0] at h2
  exact Bool.noConfusion h2

theorem scanLines_cons_not_name (l : Chars) (rest : List Chars) (cur : Chars)
    (h : nameMatch (pyStrip l) = false) :
    scanLines (l :: rest) cur =
      match dataMatch (pyStrip l) with
      | some (d, g) => { employeeName := cur, date := d, gross := g } :: scanLines rest cur
      | none => scanLines rest cur := by
  simp only [scanLines, h, Bool.false_eq_true, if_false]

/-- C3: a line whose stripped form starts with a bare ISO-date-shaped token
— in particular one that also has fewer than two currency-shaped tokens —
never contributes a record: its first character is a digit, so it is
neither a name line (which needs an uppercase first letter) nor a data
line (which needs a leading double quote), and the scan passes over it
unchanged. -/
theorem C3_iso_lead_line_never_emits (l : Chars)
    (h1 : isoLead (pyStrip l) = true)
    (_h2 : countCur (pyStrip (removeChar '\n' (removeChar '"' (pyStrip l)))) < 2) :
    ∀ (rest : List Chars) (cur : Chars), scanLines (l :: rest) cur = scanLines rest cur := by
  intro rest cur
  obtain ⟨a, t, hat, had⟩ := isoLead_head (pyStrip l) h1
  rw [scanLines_cons_not_name l rest cur (by rw [hat]; exact nameMatch_head_not_upper a t (digit_not_upper a had)),
    hat, dataMatch_head_ne_quote a t (digit_ne_quote a had)]

/-- C3 (witness): a concrete date-led line with a single currency token is
passed over by the scan. -/
theorem C3_witness :
    isoLead (pyStrip ("2024-01-31 R 1.00".data)) = true ∧
      countCur (pyStrip (removeChar '\n' (removeChar '"' (pyStrip ("2024-01-31 R 1.00".data))))) < 2 ∧
      scanLines [("2024-01-31 R 1.00".data)] unknownEmployee = scanLines [] unknownEmployee :=
  ⟨by decide, by decide,
    C3_iso_lead_line_never_emits ("2024-01-31 R 1.00".data) (by decide) (by decide) [] unknownEmployee⟩

/-- C9: the employee-name pattern requires the surname to be one uppercase
letter followed by at least one lowercase letter: (i) a line whose text
before the first comma contains no lowercase letter never matches;
(ii) any matching line starts with an uppercase letter, then a non-empty
lowercase run, then a comma or a hyphen; (iii) on a non-matching line the
scan leaves the current employee context unchanged for the rest of the
scan. -/
theorem C9_surname_needs_lowercase :
    (∀ line : Chars,
        (line.takeWhile (fun c => c != ',')).all (fun c => !c.isLower) = true →
        nameMatch line = false) ∧
    (∀ line : Chars, nameMatch line = true →
        ∃ u ls rest, line = u :: (ls ++ rest) ∧ u.isUpper = true ∧ ls ≠ [] ∧
          (∀ c ∈ ls, c.isLower = true) ∧
          (rest.head? = some ',' ∨ rest.head? = some '-')) ∧
    (∀ (l : Chars) (rest : List Chars) (cur : Chars), nameMatch (pyStrip l) = false →
        scanLines (l :: rest) cur =
          match dataMatch (pyStrip l) with
          | some (d, g) => { employeeName := cur, date := d, gross := g } :: scanLines rest cur
          | none => scanLines rest cur) :=
  ⟨nameMatch_no_lower_surname, nameMatch_shape, scanLines_cons_not_name⟩

/-- C9 (witness): the all-caps surname of the claim's example never
matches the name pattern. -/
theorem C9_witness : nameMatch ("SMITH, John".data) = false :=
  C9_surname_needs_lowercase.1 ("SMITH, John".data) (by decide)

/-- C1 (counterexample): the line
`2024-01-31 R 1,000.00 R 200.00 R 800.00` starts with an ISO-date-shaped
token and carries three currency-shaped tokens, so the claimed
pattern-presence rule recognizes it; the code's data-line branch (which
requires a double-quoted leading date and at least 10 comma-separated
fields) does not. -/
theorem C1_counterexample :
    specDataLine ("2024-01-31 R 1,000.00 R 200.00 R 800.00".data) = true ∧
      dataMatch ("2024-01-31 R 1,000.00 R 200.00 R 800.00".data) = none := by
  constructor
  · decide
  · decide

/-- C1 (amended): a line is recognized as a data line, with date `d` and
gross remuneration `g` emitted, iff it starts with a double-quoted
ISO-date-shaped token and, after removing quote characters and line breaks
and splitting on commas into non-empty stripped fields, there are at least
10 fields, `d` is field 0, `g` is field 8, `g` starts with a
currency-shaped token and `d` starts with an ISO-date-shaped token. -/
theorem C1_data_line_characterization (line d g : Chars) :
    dataMatch line = some (d, g) ↔
      quotedDateLead line = true ∧ 10 ≤ (mkFields line).length ∧
      (mkFields line).get? 0 = some d ∧ (mkFields line).get? 8 = some g ∧
      curLead g = true ∧ isoLead d = true := by
  unfold dataMatch
  split
  · rename_i hq
    split
    · rename_i hl
      split
      · rename_i f0 f8 h0 h8
        split
        · rename_i hc
          rw [Bool.and_eq_true] at hc
          constructor
          · intro h
            rw [Option.some.injEq, Prod.mk.injEq] at h
            obtain ⟨rfl, rfl⟩ := h
            exact ⟨hq, hl, h0, h8, hc.1, hc.2⟩
          · rintro ⟨-, -, hd, hg, -, -⟩
            rw [h0] at hd
            rw [h8] at hg
            rw [Option.some.injEq] at hd hg
            rw [hd, hg]
        · rename_i hc
          rw [Bool.and_eq_true] at hc
          constructor
          · intro h
            exact absurd h (by simp)
          · rintro ⟨-, -, hd, hg, hcg, hid⟩
            rw [h0] at hd
            rw [h8] at hg
            rw [Option.some.injEq] at hd hg
            rw [← hd] at hid
            rw [← hg] at hcg
            exact absurd ⟨hcg, hid⟩ hc
      · rename_i hmiss
        constructor
        · intro h
          exact absurd h (by simp)
        · rintro ⟨-, hl, hd, hg, -, -⟩
          exact (hmiss _ _ hd hg).elim
    · rename_i hl
      constructor
      · intro h
        exact absurd h (by simp)
      · rintro ⟨-, hl', -, -, -, -⟩
        exact absurd hl' hl
  · rename_i hq
    constructor
    · intro h
      exact absurd h (by simp)
    · rintro ⟨hq', -, -, -, -, -⟩
      exact absurd hq' hq

/-- C2 (counterexample): on the input of Scenario 2 the code emits no
record at all — the data line is not quoted-CSV shaped — so the output is
not the claimed record-plus-total pair. -/
theorem C2_counterexample :
    parse_payroll_data
        (some ("Kapamba, Kayoka Bovick\n2024-01-31 R 1,000.00 R 200.00 R 800.00\n".data)) ≠
      [{ employeeName := "Kapamba, Kayoka Bovick".data, date := "2024-01-31".data,
         gross := "R 200.00".data },
       { employeeName := "TOTAL for Kapamba, Kayoka Bovick".data, date := [],
         gross := "R 200.00".data }] := by
  decide

/-- C2 (amended): parsing the Scenario 2 input yields the empty result:
the name line updates the employee context, but the unquoted data line
matches neither the quoted-date pattern nor the field-count requirement,
so no record and hence no total row is produced. -/
theorem C2_scenario_yields_empty :
    parse_payroll_data
        (some ("Kapamba, Kayoka Bovick\n2024-01-31 R 1,000.00 R 200.00 R 800.00\n".data)) = [] := by
  decide

/-- C5: a `None` input and an empty input both give the empty result, and
any input none of whose lines passes the data-line branch gives the empty
result — all as ordinary return values of the total parse function. -/
theorem C5_empty_and_no_match_results (raw : Chars)
    (h : ∀ l ∈ splitOn '\n' raw, dataMatch (pyStrip l) = none) :
    parse_payroll_data none = [] ∧ parse_payroll_data (some []) = [] ∧
      parse_payroll_data (some raw) = [] := by
  refine ⟨rfl, rfl, ?_⟩
  have hscan : ∀ (ls : List Chars), (∀ l ∈ ls, dataMatch (pyStrip l) = none) →
      ∀ cur, scanLines ls cur = [] := by
    intro ls
    induction ls with
    | nil => intro _ cur; rfl
    | cons a as ih =>
      intro hh cur
      have ha := hh a (List.mem_cons_self a as)
      have has : ∀ l ∈ as, dataMatch (pyStrip l) = none :=
        fun l hl => hh l (List.mem_cons_of_mem _ hl)
      simp only [scanLines, ha]
      split
      · exact ih has _
      · exact ih has _
  show parse_payroll_data (some raw) = []
  simp only [parse_payroll_data, hscan _ h]
  split
  · rfl
  · rfl

/-- C5 (witness): a concrete input with no qualifying line parses to the
empty result. -/
theorem C5_witness :
    parse_payroll_data (some ("hello\nworld".data)) = [] :=
  (C5_empty_and_no_match_results ("hello\nworld".data) (by decide)).2.2

/-! ### Grouping infrastructure -/

theorem parse_unfold (raw : Option Chars) :
    parse_payroll_data raw =
      (uniqueKeep ((allData raw).map (fun row => row.employeeName))).flatMap
        (fun n => grpRows raw n ++ [totalRow raw n]) := by
  cases raw with
  | none => rfl
  | some r =>
    by_cases he : r.isEmpty = true
    · simp [parse_payroll_data, allData, he, uniqueKeep]
    · simp only [parse_payroll_data, allData, he, Bool.false_eq_true, if_false]
      by_cases ha : (scanLines (splitOn '\n' r) unknownEmployee).isEmpty = true
      · rw [List.isEmpty_iff] at ha
        simp [ha, uniqueKeep]
      · simp [ha]

theorem mem_uniqueKeep (a : Chars) : ∀ (l : List Chars), a ∈ uniqueKeep l ↔ a ∈ l := by
  intro l
  induction l with
  | nil => simp [uniqueKeep]
  | cons x xs ih =>
    simp only [uniqueKeep, List.mem_cons, List.mem_filter, bne_iff_ne, ne_eq, ih]
    constructor
    · rintro (rfl | ⟨hm, -⟩)
      · exact Or.inl rfl
      · exact Or.inr hm
    · rintro (rfl | hm)
      · exact Or.inl rfl
      · by_cases hax : a = x
        · exact Or.inl hax
        · exact Or.inr ⟨hm, hax⟩

theorem nodup_uniqueKeep : ∀ (l : List Chars), (uniqueKeep l).Nodup := by
  intro l
  induction l with
  | nil => simp [uniqueKeep]
  | cons x xs ih =>
    rw [uniqueKeep, List.nodup_cons]
    constructor
    · intro hx
      rw [List.mem_filter] at hx
      simp at hx
    · exact ih.filter _

theorem firstIdx_cons_self (a : Chars) (l : List Chars) : firstIdx (a :: l) a = 0 := by
  unfold firstIdx
  rw [List.takeWhile_cons]
  simp

theorem firstIdx_cons_ne (a b : Chars) (l : List Chars) (h : b ≠ a) :
    firstIdx (a :: l) b = firstIdx l b + 1 := by
  unfold firstIdx
  rw [List.takeWhile_cons]
  have : (a != b) = true := by
    rw [bne_iff_ne]
    exact fun hh => h hh.symm
  rw [this]
  simp

theorem uniqueKeep_pairwise_firstOcc : ∀ (l : List Chars),
    (uniqueKeep l).Pairwise (fun a b => firstIdx l a < firstIdx l b) := by
  intro l
  induction l with
  | nil => simp [uniqueKeep]
  | cons x xs ih =>
    rw [uniqueKeep, List.pairwise_cons]
    constructor
    · intro b hb
      rw [List.mem_filter, bne_iff_ne, ne_eq] at hb
      rw [firstIdx_cons_self, firstIdx_cons_ne x b xs hb.2]
      exact Nat.succ_pos _
    · have hsub : ((uniqueKeep xs).filter (fun y => y != x)).Pairwise
          (fun a b => firstIdx xs a < firstIdx xs b) :=
        ih.sublist (List.filter_sublist _)
      refine hsub.imp_of_mem ?_
      intro a b ha hb hlt
      rw [List.mem_filter, bne_iff_ne, ne_eq] at ha hb
      rw [firstIdx_cons_ne x a xs ha.2, firstIdx_cons_ne x b xs hb.2]
      exact Nat.succ_lt_succ hlt

theorem grpRows_ne_nil (raw : Option Chars) (n : Chars)
    (h : n ∈ (allData raw).map (fun row => row.employeeName)) : grpRows raw n ≠ [] := by
  rw [List.mem_map] at h
  obtain ⟨row, hrow, heq⟩ := h
  have : row ∈ grpRows raw n := by
    rw [grpRows, List.mem_filter]
    exact ⟨hrow, by rw [heq, beq_self_eq_true]⟩
  exact List.ne_nil_of_mem this

/-- C4: the output decomposes into per-employee groups: each group's rows
are exactly that employee's rows of the scan, in scan order, immediately
followed by exactly one total row for that employee; the group names are
distinct, cover exactly the scanned employee names, and appear in order of
the name's first occurrence among the scanned rows. -/
theorem C4_output_grouped (raw : Option Chars) :
    ∃ gs : List (Chars × List PayRow),
      parse_payroll_data raw =
        gs.flatMap (fun g => g.2 ++
          [{ employeeName := totalFor g.1, date := [],
             gross := formatCurrency (sumPyF (g.2.map (fun row => clean_currency row.gross))) }]) ∧
      (gs.map Prod.fst).Nodup ∧
      (∀ g ∈ gs, g.2 = (allData raw).filter (fun row => row.employeeName == g.1) ∧ g.2 ≠ []) ∧
      (∀ n, n ∈ gs.map Prod.fst ↔ n ∈ (allData raw).map (fun row => row.employeeName)) ∧
      (gs.map Prod.fst).Pairwise (fun a b =>
        firstIdx ((allData raw).map (fun row => row.employeeName)) a <
          firstIdx ((allData raw).map (fun row => row.employeeName)) b) := by
  refine ⟨(uniqueKeep ((allData raw).map (fun row => row.employeeName))).map
      (fun n => (n, grpRows raw n)), ?_, ?_, ?_, ?_, ?_⟩
  · rw [parse_unfold, List.flatMap_map]
    rfl
  · rw [List.map_map]
    have : (Prod.fst ∘ fun n => (n, grpRows raw n)) = id := rfl
    rw [this, List.map_id]
    exact nodup_uniqueKeep _
  · intro g hg
    rw [List.mem_map] at hg
    obtain ⟨n, hn, rfl⟩ := hg
    refine ⟨rfl, grpRows_ne_nil raw n ?_⟩
    exact (mem_uniqueKeep n _).mp hn
  · intro n
    rw [List.map_map]
    have : (Prod.fst ∘ fun n => (n, grpRows raw n)) = id := rfl
    rw [this, List.map_id]
    exact mem_uniqueKeep n _
  · rw [List.map_map]
    have : (Prod.fst ∘ fun n => (n, grpRows raw n)) = id := rfl
    rw [this, List.map_id]
    exact uniqueKeep_pairwise_firstOcc _

/-! ### No run-time exceptions -/

theorem dataMatchE_eq (line : Chars) : dataMatchE line = Except.ok (dataMatch line) := by
  unfold dataMatchE dataMatch
  split
  · split
    · rename_i hl
      cases h0 : (mkFields line).get? 0 with
      | none =>
        have := List.get?_eq_none.mp h0
        omega
      | some f0 =>
        cases h8 : (mkFields line).get? 8 with
        | none =>
          have := List.get?_eq_none.mp h8
          omega
        | some f8 => rfl
    · rfl
  · rfl

theorem scanLinesE_eq : ∀ (ls : List Chars) (cur : Chars),
    scanLinesE ls cur = Except.ok (scanLines ls cur) := by
  intro ls
  induction ls with
  | nil => intro cur; rfl
  | cons l t ih =>
    intro cur
    simp only [scanLinesE, scanLines, dataMatchE_eq]
    split
    · exact ih _
    · cases hd : dataMatch (pyStrip l) with
      | none => exact ih cur
      | some pr =>
        obtain ⟨d, g⟩ := pr
        rw [ih cur]

theorem find?_totals (keys : List Chars) (f : Chars → PyFloat) (n : Chars) (h : n ∈ keys) :
    (keys.map (fun m => (m, f m))).find? (fun p => p.1 == n) = some (n, f n) := by
  induction keys with
  | nil => cases h
  | cons a t ih =>
    rw [List.map_cons]
    by_cases han : a = n
    · subst han
      rw [List.find?_cons_of_pos _ (by simp)]
    · rw [List.find?_cons_of_neg _ (by simp [han])]
      cases h with
      | head => exact absurd rfl han
      | tail _ hmem => exact ih hmem

theorem foldr_totals (ad : List PayRow) (keys : List Chars) :
    ∀ sub : List Chars, (∀ n ∈ sub, n ∈ keys) →
    sub.foldr
      (fun n acc =>
        match lookupTotalE (keys.map (fun m =>
            (m, sumPyF ((ad.filter (fun row => row.employeeName == m)).map
                  (fun row => clean_currency row.gross))))) n, acc with
        | Except.ok t, Except.ok rows =>
          Except.ok ((ad.filter (fun row => row.employeeName == n)) ++
            { employeeName := totalFor n, date := [], gross := formatCurrency t } :: rows)
        | Except.error e, _ => Except.error e
        | _, Except.error e => Except.error e)
      (Except.ok []) =
    Except.ok (sub.flatMap (fun n =>
      (ad.filter (fun row => row.employeeName == n)) ++
        [{ employeeName := totalFor n, date := [],
           gross := formatCurrency (sumPyF ((ad.filter (fun row => row.employeeName == n)).map
             (fun row => clean_currency row.gross))) }])) := by
  intro sub
  induction sub with
  | nil => intro _; rfl
  | cons a t ih =>
    intro hsub
    rw [List.foldr_cons, ih (fun n hn => hsub n (List.mem_cons_of_mem _ hn))]
    rw [lookupTotalE, find?_totals keys _ a (hsub a (List.mem_cons_self _ _))]
    rw [List.flatMap_cons]
    simp [List.append_assoc]

/-- C10: on every input — `None` or any string whatsoever — the parse runs
to completion and returns its result; none of the partial operations of
the source (`fields[0]`, `fields[8]`, the totals `.iloc[0]` lookup) can
raise, and `float(...)` failures are absorbed by `clean_currency`. -/
theorem C10_no_exceptions (raw : Option Chars) :
    parseE raw = Except.ok (parse_payroll_data raw) := by
  cases raw with
  | none => rfl
  | some r =>
    simp only [parseE, parse_payroll_data]
    split
    · rfl
    · rename_i he
      rw [scanLinesE_eq]
      simp only []
      split
      · rfl
      · rename_i ha
        have hgrp : ∀ n, grpRows (some r) n =
            (scanLines (splitOn '\n' r) unknownEmployee).filter
              (fun row => row.employeeName == n) := by
          intro n
          simp [grpRows, allData, he]
        have := foldr_totals (scanLines (splitOn '\n' r) unknownEmployee)
          (uniqueKeep ((scanLines (splitOn '\n' r) unknownEmployee).map
            (fun row => row.employeeName)))
          (uniqueKeep ((scanLines (splitOn '\n' r) unknownEmployee).map
            (fun row => row.employeeName)))
          (fun n hn => hn)
        rw [this]
        congr 1
        refine List.flatMap_congr ?_
        intro n hn
        rw [totalRow, hgrp n]

/-! ### Shapes of emitted records -/

theorem dataMatch_some_shapes (line d g : Chars) (h : dataMatch line = some (d, g)) :
    curLead g = true ∧ isoLead d = true := by
  unfold dataMatch at h
  split at h
  · split at h
    · split at h
      · rename_i f0 f8 h0 h8
        split at h
        · rename_i hc
          rw [Option.some.injEq, Prod.mk.injEq] at h
          obtain ⟨rfl, rfl⟩ := h
          rw [Bool.and_eq_true] at hc
          exact ⟨hc.1, hc.2⟩
        · exact absurd h (by simp)
      · exact absurd h (by simp)
    · exact absurd h (by simp)
  · exact absurd h (by simp)

theorem scanLines_mem_shapes : ∀ (ls : List Chars) (cur : Chars) (row : PayRow),
    row ∈ scanLines ls cur → curLead row.gross = true ∧ isoLead row.date = true := by
  intro ls
  induction ls with
  | nil => intro cur row h; cases h
  | cons l t ih =>
    intro cur row h
    simp only [scanLines] at h
    split at h
    · exact ih _ row h
    · split at h
      · rename_i pr d g heq
        cases h with
        | head => exact dataMatch_some_shapes (pyStrip l) d g heq
        | tail _ hmem => exact ih cur row hmem
      · exact ih cur row h

theorem allData_shapes (raw : Option Chars) (row : PayRow)
    (h : row ∈ allData raw) : curLead row.gross = true ∧ isoLead row.date = true := by
  cases raw with
  | none => simp [allData] at h
  | some r =>
    simp only [allData] at h
    by_cases he : r.isEmpty = true
    · rw [if_pos he] at h
      cases h
    · rw [if_neg he] at h
      exact scanLines_mem_shapes _ _ row h

/-- C8 (amended): every emitted record's gross-remuneration string starts
with the currency shape and its date string starts with the ISO date
shape — both are prefix checks (`re.match`), so trailing characters are
allowed. -/
theorem C8_emitted_records_lead_shapes (raw : Option Chars) (row : PayRow)
    (h : row ∈ allData raw) : curLead row.gross = true ∧ isoLead row.date = true :=
  allData_shapes raw row h

/-- C8 (witness): a concrete emitted record has both leading shapes. -/
theorem C8_witness :
    curLead ("R 1.00".data) = true ∧ isoLead ("2024-01-31".data) = true :=
  C8_emitted_records_lead_shapes (some ("\"2024-01-31\",a,b,c,d,e,f,g,R 1.00,z".data))
    { employeeName := unknownEmployee, date := "2024-01-31".data, gross := "R 1.00".data }
    (by decide)

/-- C8 (counterexample): the shape checks are prefix matches only — a line
whose gross field is `R 1.00junk` is accepted and emitted verbatim, and
the emitted string is not entirely of the currency shape. -/
theorem C8_counterexample :
    allData (some ("\"2024-01-31\",a,b,c,d,e,f,g,R 1.00junk,z".data)) =
      [{ employeeName := unknownEmployee, date := "2024-01-31".data,
         gross := "R 1.00junk".data }] ∧
      fullCurrencyShape ("R 1.00junk".data) = false := by
  constructor
  · decide
  · decide

/-! ### Whitespace and stripping facts -/

theorem dropWhile_of_all_neg (p : Char → Bool) :
    ∀ (l : Chars), (∀ c ∈ l, p c = false) → List.dropWhile p l = l := by
  intro l h
  cases l with
  | nil => rfl
  | cons a t => exact List.dropWhile_cons_of_neg (by rw [h a (List.mem_cons_self _ _)]; simp)

theorem dropWhile_append_head (p : Char → Bool) (B : Chars)
    (hB : ∀ c t, B = c :: t → p c = false) :
    ∀ (A : Chars), List.dropWhile p (A ++ B) = List.dropWhile p A ++ B := by
  intro A
  induction A with
  | nil =>
    simp only [List.nil_append, List.dropWhile_nil]
    cases hBe : B with
    | nil => rfl
    | cons c t => exact List.dropWhile_cons_of_neg (by rw [hB c t hBe]; simp)
  | cons a A' ih =>
    by_cases hp : p a = true
    · rw [List.cons_append, List.dropWhile_cons_of_pos hp, List.dropWhile_cons_of_pos hp, ih]
    · rw [Bool.not_eq_true] at hp
      rw [List.cons_append, List.dropWhile_cons_of_neg (by rw [hp]; simp),
        List.dropWhile_cons_of_neg (by rw [hp]; simp), List.cons_append]

theorem dropWhile_space_of_all (w s : Chars) (hw : ∀ c ∈ w, isSpaceCh c = true) :
    List.dropWhile isSpaceCh (w ++ s) = List.dropWhile isSpaceCh s := by
  induction w with
  | nil => rfl
  | cons a t ih =>
    rw [List.cons_append, List.dropWhile_cons_of_pos (hw a (List.mem_cons_self _ _))]
    exact ih (fun c hc => hw c (List.mem_cons_of_mem _ hc))

theorem head_dropWhile_neg (p : Char → Bool) :
    ∀ (l : Chars) (c : Char) (t : Chars), List.dropWhile p l = c :: t → p c = false := by
  intro l
  induction l with
  | nil => intro c t h; cases h
  | cons a l' ih =>
    intro c t h
    by_cases hp : p a = true
    · rw [List.dropWhile_cons_of_pos hp] at h
      exact ih c t h
    · rw [Bool.not_eq_true] at hp
      rw [List.dropWhile_cons_of_neg (by rw [hp]; simp)] at h
      injection h with h1 h2
      rw [← h1]
      exact hp

theorem dropWhile_idem (p : Char → Bool) (l : Chars) :
    List.dropWhile p (List.dropWhile p l) = List.dropWhile p l := by
  cases hd : List.dropWhile p l with
  | nil => rfl
  | cons c t =>
    exact List.dropWhile_cons_of_neg (by rw [head_dropWhile_neg p l c t hd]; simp)

theorem pyStrip_append_space (w s : Chars) (hw : ∀ c ∈ w, isSpaceCh c = true) :
    pyStrip (w ++ s) = pyStrip s := by
  unfold pyStrip
  rw [dropWhile_space_of_all w s hw]

theorem takeWhile_append_all (p : Char → Bool) (B : Chars)
    (hB : ∀ c t, B = c :: t → p c = false) :
    ∀ (A : Chars), (∀ c ∈ A, p c = true) → List.takeWhile p (A ++ B) = A := by
  intro A
  induction A with
  | nil =>
    intro _
    simp only [List.nil_append]
    cases hBe : B with
    | nil => rfl
    | cons c t => exact List.takeWhile_cons_of_neg (by rw [hB c t hBe]; simp)
  | cons a A' ih =>
    intro hA
    rw [List.cons_append, List.takeWhile_cons_of_pos (hA a (List.mem_cons_self _ _)),
      ih (fun c hc => hA c (List.mem_cons_of_mem _ hc))]

theorem dropWhile_append_all (p : Char → Bool) (B : Chars)
    (hB : ∀ c t, B = c :: t → p c = false) :
    ∀ (A : Chars), (∀ c ∈ A, p c = true) → List.dropWhile p (A ++ B) = B := by
  intro A
  induction A with
  | nil =>
    intro _
    simp only [List.nil_append]
    cases hBe : B with
    | nil => rfl
    | cons c t => exact List.dropWhile_cons_of_neg (by rw [hB c t hBe]; simp)
  | cons a A' ih =>
    intro hA
    rw [List.cons_append, List.dropWhile_cons_of_pos (hA a (List.mem_cons_self _ _)),
      ih (fun c hc => hA c (List.mem_cons_of_mem _ hc))]

theorem digit_not_space (c : Char) (h : c.isDigit = true) : isSpaceCh c = false := by
  unfold isSpaceCh
  by_contra hb
  simp only [Bool.not_eq_false, Bool.or_eq_true, beq_iff_eq] at hb
  rcases hb with ((((rfl | rfl) | rfl) | rfl) | rfl) | rfl <;> exact absurd h (by decide)

theorem dot_not_space : isSpaceCh '.' = false := by decide

/-- `pyStrip` on a string of digits, a dot, two digits and a tail: the
front is kept and only the tail is right-stripped. -/
theorem pyStrip_digits_core (A tail : Chars) (x y : Char)
    (hA : ∀ c ∈ A, c.isDigit = true) (_hx : x.isDigit = true) (hy : y.isDigit = true) :
    pyStrip (A ++ '.' :: x :: y :: tail) =
      A ++ '.' :: x :: y :: (List.dropWhile isSpaceCh tail.reverse).reverse := by
  unfold pyStrip
  have hfront : List.dropWhile isSpaceCh (A ++ '.' :: x :: y :: tail) =
      A ++ '.' :: x :: y :: tail := by
    cases A with
    | nil =>
      simp only [List.nil_append]
      exact List.dropWhile_cons_of_neg (by rw [dot_not_space]; simp)
    | cons a A' =>
      rw [List.cons_append]
      exact List.dropWhile_cons_of_neg
        (by rw [digit_not_space a (hA a (List.mem_cons_self _ _))]; simp)
  rw [hfront]
  rw [show (A ++ '.' :: x :: y :: tail).reverse =
    tail.reverse ++ y :: x :: '.' :: A.reverse by simp]
  rw [dropWhile_append_head isSpaceCh (y :: x :: '.' :: A.reverse)
    (fun c t hct => by injection hct with h1 h2; rw [← h1]; exact digit_not_space y hy)]
  simp

/-! ### Character-removal facts -/

theorem removeChar_eq_self (c : Char) (s : Chars) (h : ∀ d ∈ s, d ≠ c) :
    removeChar c s = s :=
  List.filter_eq_self.mpr (fun d hd => by rw [bne_iff_ne]; exact h d hd)

theorem removeChar_append (c : Char) (a b : Chars) :
    removeChar c (a ++ b) = removeChar c a ++ removeChar c b := by
  unfold removeChar
  rw [List.filter_append]

theorem removeChar_cons_self (c : Char) (s : Chars) :
    removeChar c (c :: s) = removeChar c s := by
  simp [removeChar]

theorem space_ne_R (c : Char) (h : isSpaceCh c = true) : c ≠ 'R' := by
  rintro rfl
  exact absurd h (by decide)

theorem space_ne_comma (c : Char) (h : isSpaceCh c = true) : c ≠ ',' := by
  rintro rfl
  exact absurd h (by decide)

theorem digitsCommas_ne_R (c : Char) (h : digitsCommas c = true) : c ≠ 'R' := by
  rintro rfl
  exact absurd h (by decide)

theorem digit_ne_R (c : Char) (h : c.isDigit = true) : c ≠ 'R' := by
  rintro rfl
  exact absurd h (by decide)

theorem digit_ne_comma (c : Char) (h : c.isDigit = true) : c ≠ ',' := by
  rintro rfl
  exact absurd h (by decide)

theorem digit_ne_underscore (c : Char) (h : c.isDigit = true) : c ≠ '_' := by
  rintro rfl
  exact absurd h (by decide)

theorem digitsCommas_filter_digit (rn : Chars) (h : ∀ c ∈ rn, digitsCommas c = true) :
    ∀ c ∈ rn.filter (fun d => d != ','), c.isDigit = true := by
  intro c hc
  rw [List.mem_filter, bne_iff_ne] at hc
  have := h c hc.1
  rw [digitsCommas, Bool.or_eq_true] at this
  rcases this with hd | hcm
  · exact hd
  · rw [beq_iff_eq] at hcm
    exact absurd hcm hc.2

/-! ### Python float-literal parsing on digit strings -/

theorem udRest_digits_append (rest : Chars)
    (hrest : rest = [] ∨ ∃ c t, rest = c :: t ∧ c.isDigit = false ∧ c ≠ '_') :
    ∀ D : Chars, (∀ c ∈ D, c.isDigit = true) → udRest (D ++ rest) = (D, rest) := by
  intro D
  induction D with
  | nil =>
    intro _
    rcases hrest with rfl | ⟨c, t, rfl, hcd, hcu⟩
    · rfl
    · simp only [List.nil_append]
      unfold udRest
      split
      · rename_i c2 r heq
        injection heq with h1 h2
        exact absurd h1 hcu
      · rename_i c2 r heq
        injection heq with h1 h2
        subst h1
        subst h2
        simp [hcd]
      · rename_i heq
        cases heq
  | cons d D' ih =>
    intro hD
    have hd : d.isDigit = true := hD d (List.mem_cons_self _ _)
    rw [List.cons_append]
    unfold udRest
    split
    · rename_i c2 r heq
      injection heq with h1 h2
      exact absurd h1 (digit_ne_underscore d hd)
    · rename_i c2 r heq
      injection heq with h1 h2
      subst h1
      rw [← h2, hd]
      simp only [if_true]
      rw [ih (fun c hc => hD c (List.mem_cons_of_mem _ hc))]
    · rename_i heq
      cases heq

theorem parseUDigits_digits (D rest : Chars) (hne : D ≠ [])
    (hD : ∀ c ∈ D, c.isDigit = true)
    (hrest : rest = [] ∨ ∃ c t, rest = c :: t ∧ c.isDigit = false ∧ c ≠ '_') :
    parseUDigits (D ++ rest) = some (D, rest) := by
  cases D with
  | nil => exact absurd rfl hne
  | cons d D' =>
    rw [List.cons_append]
    simp only [parseUDigits]
    rw [hD d (List.mem_cons_self _ _)]
    simp only [if_true]
    rw [udRest_digits_append rest hrest D' (fun c hc => hD c (List.mem_cons_of_mem _ hc))]

theorem toLower_digit_or_dot (c : Char) (hc : c.isDigit = true ∨ c = '.') :
    Char.toLower c = c := by
  rcases hc with hd | rfl
  · obtain ⟨-, h2⟩ := isDigit_toNat c hd
    simp only [Char.toLower]
    rw [if_neg]
    rintro ⟨ha, -⟩
    have h3 : (65 : ℕ) ≤ c.val.toNat := ha
    omega
  · decide

theorem lcs_cons_ne (c : Char) (rest : Chars) (hc : c.isDigit = true ∨ c = '.')
    (wc : Char) (wt : Chars) (hwc : wc = 'i' ∨ wc = 'n') :
    lcs (c :: rest) ≠ wc :: wt := by
  intro h
  unfold lcs at h
  rw [List.map_cons] at h
  injection h with h1 h2
  rw [toLower_digit_or_dot c hc] at h1
  rcases hc with hd | rfl
  · subst h1
    rcases hwc with rfl | rfl <;> exact absurd hd (by decide)
  · rcases hwc with rfl | rfl <;> exact absurd h1 (by decide)

theorem pythonFloat_pos_core (c : Char) (rest : Chars)
    (hst : pyStrip (c :: rest) = c :: rest) (hc : c.isDigit = true ∨ c = '.') :
    pythonFloat (c :: rest) =
      (match parseUDigits (c :: rest) with
       | some (ids, r1) =>
         match r1 with
         | '.' :: r2 =>
           match parseUDigits r2 with
           | some (fds, r3) => pyAfterMant 1 ids fds r3
           | none => pyAfterMant 1 ids [] r2
         | _ => pyAfterMant 1 ids [] r1
       | none =>
         match c :: rest with
         | '.' :: r2 =>
           match parseUDigits r2 with
           | some (fds, r3) => pyAfterMant 1 [] fds r3
           | none => none
         | _ => none) := by
  have hsign : pySign (c :: rest) = (1, c :: rest) := by
    unfold pySign
    split
    · rename_i r heq
      injection heq with h1 h2
      rcases hc with hd | hdot
      · rw [h1] at hd
        exact absurd hd (by decide)
      · rw [h1] at hdot
        exact absurd hdot (by decide)
    · rename_i r heq
      injection heq with h1 h2
      rcases hc with hd | hdot
      · rw [h1] at hd
        exact absurd hd (by decide)
      · rw [h1] at hdot
        exact absurd hdot (by decide)
    · rfl
  simp only [pythonFloat, hst, hsign]
  rw [if_neg (fun h => lcs_cons_ne c rest hc 'i' ("nf".data) (Or.inl rfl) h),
    if_neg (fun h => lcs_cons_ne c rest hc 'i' ("nfinity".data) (Or.inl rfl) h),
    if_neg (fun h => lcs_cons_ne c rest hc 'n' ("an".data) (Or.inr rfl) h)]
  rfl

theorem mantVal_one_nonneg (ids fds : Chars) : 0 ≤ mantVal 1 ids fds := by
  unfold mantVal
  positivity

theorem pyExpTail_one (ids fds r : Chars) :
    pyExpTail 1 ids fds r = none ∨
      ∃ q, pyExpTail 1 ids fds r = some (.finite q) ∧ 0 ≤ q := by
  unfold pyExpTail
  split
  all_goals
    dsimp only
    split
    · rename_i eds r2 hp
      split
      · refine Or.inr ⟨_, rfl, ?_⟩
        apply mul_nonneg (mantVal_one_nonneg ids fds)
        split <;> positivity
      · exact Or.inl rfl
    · exact Or.inl rfl

theorem pyAfterMant_one (ids fds rest : Chars) :
    pyAfterMant 1 ids fds rest = none ∨
      ∃ q, pyAfterMant 1 ids fds rest = some (.finite q) ∧ 0 ≤ q := by
  unfold pyAfterMant
  split
  · exact Or.inr ⟨mantVal 1 ids fds, rfl, mantVal_one_nonneg ids fds⟩
  · rename_i r
    exact pyExpTail_one ids fds r
  · rename_i r
    exact pyExpTail_one ids fds r
  · exact Or.inl rfl

theorem pythonFloat_digitdot_head (c : Char) (rest : Chars)
    (hst : pyStrip (c :: rest) = c :: rest) (hc : c.isDigit = true ∨ c = '.') :
    pythonFloat (c :: rest) = none ∨
      ∃ q, pythonFloat (c :: rest) = some (.finite q) ∧ 0 ≤ q := by
  rw [pythonFloat_pos_core c rest hst hc]
  split
  · rename_i ids r1 hp
    split
    · rename_i r2
      split
      · rename_i fds r3 hp2
        exact pyAfterMant_one ids fds r3
      · exact pyAfterMant_one ids [] r2
    · exact pyAfterMant_one ids [] r1
  · split
    · rename_i r2
      split
      · rename_i fds r3 hp2
        exact pyAfterMant_one [] fds r3
      · exact Or.inl rfl
    · exact Or.inl rfl

theorem pythonFloat_digits_dot2 (D : Chars) (x y : Char)
    (hD : ∀ c ∈ D, c.isDigit = true) (hx : x.isDigit = true) (hy : y.isDigit = true) :
    pythonFloat (D ++ '.' :: [x, y]) =
      some (.finite ((digitsVal D : ℚ) + (digitsVal [x, y] : ℚ) / 100)) := by
  have hst : pyStrip (D ++ '.' :: [x, y]) = D ++ '.' :: [x, y] := by
    have h := pyStrip_digits_core D [] x y hD hx hy
    simpa using h
  have hxy : parseUDigits [x, y] = some ([x, y], []) := by
    have hmem : ∀ c ∈ [x, y], c.isDigit = true := by
      intro c hc
      rcases List.mem_cons.mp hc with rfl | hc2
      · exact hx
      · rcases List.mem_cons.mp hc2 with rfl | hc3
        · exact hy
        · cases hc3
    have h := parseUDigits_digits [x, y] [] (by simp) hmem (Or.inl rfl)
    simpa using h
  cases D with
  | nil =>
    simp only [List.nil_append] at hst ⊢
    rw [pythonFloat_pos_core '.' [x, y] hst (Or.inr rfl)]
    have hpu : parseUDigits ('.' :: [x, y]) = none := by
      unfold parseUDigits
      simp
    rw [hpu]
    dsimp only
    split
    · rename_i r2 heq
      injection heq with h1 h2
      subst h2
      rw [hxy]
      dsimp only
      unfold pyAfterMant
      unfold mantVal
      rw [Option.some.injEq, PyFloat.finite.injEq]
      simp [digitsVal]
      norm_num
    · rename_i hne
      exact ((hne [x, y] rfl)).elim
  | cons d D' =>
    have hd : d.isDigit = true := hD d (List.mem_cons_self _ _)
    rw [List.cons_append] at hst ⊢
    rw [pythonFloat_pos_core d (D' ++ '.' :: [x, y]) hst (Or.inl hd)]
    have hpu : parseUDigits (d :: (D' ++ '.' :: [x, y])) = some (d :: D', '.' :: [x, y]) := by
      have h := parseUDigits_digits (d :: D') ('.' :: [x, y]) (by simp) hD
        (Or.inr ⟨'.', [x, y], rfl, by decide, by decide⟩)
      rw [List.cons_append] at h
      exact h
    rw [hpu]
    dsimp only
    split
    · rename_i r2 heq
      injection heq with h1 h2
      subst h2
      rw [hxy]
      dsimp only
      unfold pyAfterMant
      unfold mantVal
      rw [Option.some.injEq, PyFloat.finite.injEq]
      have hlen : ([x, y] : Chars).length = 2 := rfl
      rw [hlen]
      push_cast
      ring_nf
    · rename_i hne
      exact ((hne [x, y] rfl)).elim

/-- C6: currency normalization removes the `R` marker and the commas,
strips surrounding whitespace and parses the remainder as a decimal
number: (i) whenever that parse fails, the normalized value is zero (the
`except` fallback — no error is raised, `clean_currency` is total);
(ii) on a fully currency-shaped string the value is the decimal reading
of its digits: integer part plus the two decimal digits over 100. -/
theorem C6_clean_currency_behavior :
    (∀ v : Chars, pythonFloat (pyStrip (removeChar ',' (removeChar 'R' v))) = none →
        clean_currency v = PyFloat.finite 0) ∧
    (∀ (w rn : Chars) (x y : Char),
        (∀ c ∈ w, isSpaceCh c = true) → rn ≠ [] → (∀ c ∈ rn, digitsCommas c = true) →
        x.isDigit = true → y.isDigit = true →
        clean_currency ('R' :: (w ++ rn ++ '.' :: [x, y])) =
          PyFloat.finite ((digitsVal (rn.filter (fun d => d != ',')) : ℚ) +
            (digitsVal [x, y] : ℚ) / 100)) := by
  constructor
  · intro v h
    unfold clean_currency
    rw [h]
  · intro w rn x y hw hrn hrnd hx hy
    have hR : removeChar 'R' ('R' :: (w ++ rn ++ '.' :: [x, y])) =
        w ++ rn ++ '.' :: [x, y] := by
      rw [removeChar_cons_self]
      apply removeChar_eq_self
      intro d hd
      rw [List.append_assoc, List.mem_append] at hd
      rcases hd with hd | hd
      · exact space_ne_R d (hw d hd)
      · rw [List.mem_append] at hd
        rcases hd with hd | hd
        · exact digitsCommas_ne_R d (hrnd d hd)
        · rcases List.mem_cons.mp hd with rfl | hd2
          · decide
          · rcases List.mem_cons.mp hd2 with heq | hd3
            · rw [heq]
              exact digit_ne_R x hx
            · rcases List.mem_cons.mp hd3 with heq | hd4
              · rw [heq]
                exact digit_ne_R y hy
              · cases hd4
    have hcomma : removeChar ',' (w ++ rn ++ '.' :: [x, y]) =
        w ++ rn.filter (fun d => d != ',') ++ '.' :: [x, y] := by
      rw [removeChar_append, removeChar_append]
      congr 1
      · congr 1
        exact removeChar_eq_self ',' w (fun d hd => space_ne_comma d (hw d hd))
      · apply removeChar_eq_self
        intro d hd
        rcases List.mem_cons.mp hd with rfl | hd2
        · decide
        · rcases List.mem_cons.mp hd2 with heq | hd3
          · rw [heq]
            exact digit_ne_comma x hx
          · rcases List.mem_cons.mp hd3 with heq | hd4
            · rw [heq]
              exact digit_ne_comma y hy
            · cases hd4
    have hdig : ∀ c ∈ rn.filter (fun d => d != ','), c.isDigit = true :=
      digitsCommas_filter_digit rn hrnd
    have hstrip : pyStrip (w ++ rn.filter (fun d => d != ',') ++ '.' :: [x, y]) =
        rn.filter (fun d => d != ',') ++ '.' :: [x, y] := by
      rw [List.append_assoc, pyStrip_append_space w _ hw]
      have h := pyStrip_digits_core (rn.filter (fun d => d != ',')) [] x y hdig hx hy
      simpa using h
    unfold clean_currency
    rw [hR, hcomma, hstrip, pythonFloat_digits_dot2 _ x y hdig hx hy]

/-- C6 (witness): a malformed currency string normalizes to zero without
an error, and a well-shaped one to its decimal value. -/
theorem C6_witness :
    clean_currency ("Rx".data) = PyFloat.finite 0 ∧
      clean_currency ("R 1,234.56".data) =
        PyFloat.finite ((digitsVal (("1,234".data).filter (fun d => d != ',')) : ℚ) +
          (digitsVal ['5', '6'] : ℚ) / 100) :=
  ⟨C6_clean_currency_behavior.1 ("Rx".data) (by decide),
   C6_clean_currency_behavior.2 [' '] ("1,234".data) '5' '6' (by decide) (by decide)
     (by decide) (by decide) (by decide)⟩

theorem removeChar_cons_of_ne (c a : Char) (s : Chars) (h : a ≠ c) :
    removeChar c (a :: s) = a :: removeChar c s := by
  simp [removeChar, List.filter_cons, bne_iff_ne, h]

theorem digitsCommas_not_space (c : Char) (h : digitsCommas c = true) :
    isSpaceCh c = false := by
  rw [digitsCommas, Bool.or_eq_true] at h
  rcases h with hd | hc
  · exact digit_not_space c hd
  · rw [beq_iff_eq] at hc
    subst hc
    decide

theorem curLead_decomp (g : Chars) (h : curLead g = true) :
    ∃ (w run : Chars) (x y : Char) (tail : Chars),
      g = 'R' :: (w ++ run ++ '.' :: x :: y :: tail) ∧
      (∀ c ∈ w, isSpaceCh c = true) ∧ run ≠ [] ∧ (∀ c ∈ run, digitsCommas c = true) ∧
      x.isDigit = true ∧ y.isDigit = true := by
  unfold curLead at h
  split at h
  · rename_i rest
    dsimp only at h
    split at h
    · exact Bool.noConfusion h
    · rename_i e es x y tl heq1 heq2
      rw [Bool.and_eq_true] at h
      refine ⟨rest.takeWhile isSpaceCh, (rest.dropWhile isSpaceCh).takeWhile digitsCommas,
        x, y, tl, ?_, ?_, ?_, ?_, h.1, h.2⟩
      · rw [List.append_assoc]
        rw [show (rest.dropWhile isSpaceCh).takeWhile digitsCommas ++ '.' :: x :: y :: tl =
          rest.dropWhile isSpaceCh from ?_]
        · rw [List.takeWhile_append_dropWhile]
        · rw [← heq2]
          exact List.takeWhile_append_dropWhile _ _
      · intro c hc
        exact List.mem_takeWhile_imp hc
      · rw [heq1]
        simp
      · intro c hc
        exact List.mem_takeWhile_imp hc
    · exact Bool.noConfusion h
  · exact Bool.noConfusion h

theorem curLead_clean_finite (g : Chars) (h : curLead g = true) :
    ∃ q, clean_currency g = PyFloat.finite q ∧ 0 ≤ q := by
  obtain ⟨w, run, x, y, tail, rfl, hw, hrun_ne, hrun, hx, hy⟩ := curLead_decomp g h
  have hR : removeChar 'R' ('R' :: (w ++ run ++ '.' :: x :: y :: tail)) =
      w ++ run ++ '.' :: x :: y :: removeChar 'R' tail := by
    rw [removeChar_cons_self, removeChar_append, removeChar_append,
      removeChar_eq_self 'R' w (fun d hd => space_ne_R d (hw d hd)),
      removeChar_eq_self 'R' run (fun d hd => digitsCommas_ne_R d (hrun d hd)),
      removeChar_cons_of_ne 'R' '.' _ (by decide),
      removeChar_cons_of_ne 'R' x _ (digit_ne_R x hx),
      removeChar_cons_of_ne 'R' y _ (digit_ne_R y hy)]
  have hcomma : removeChar ',' (w ++ run ++ '.' :: x :: y :: removeChar 'R' tail) =
      w ++ run.filter (fun d => d != ',') ++
        '.' :: x :: y :: removeChar ',' (removeChar 'R' tail) := by
    rw [removeChar_append, removeChar_append,
      removeChar_eq_self ',' w (fun d hd => space_ne_comma d (hw d hd)),
      removeChar_cons_of_ne ',' '.' _ (by decide),
      removeChar_cons_of_ne ',' x _ (digit_ne_comma x hx),
      removeChar_cons_of_ne ',' y _ (digit_ne_comma y hy)]
    rfl
  have hdig : ∀ c ∈ run.filter (fun d => d != ','), c.isDigit = true :=
    digitsCommas_filter_digit run hrun
  have hstrip : pyStrip (w ++ run.filter (fun d => d != ',') ++
      '.' :: x :: y :: removeChar ',' (removeChar 'R' tail)) =
      run.filter (fun d => d != ',') ++ '.' :: x :: y ::
        (List.dropWhile isSpaceCh (removeChar ',' (removeChar 'R' tail)).reverse).reverse := by
    rw [List.append_assoc, pyStrip_append_space w _ hw]
    exact pyStrip_digits_core _ _ x y hdig hx hy
  have hfix : pyStrip (run.filter (fun d => d != ',') ++ '.' :: x :: y ::
      (List.dropWhile isSpaceCh (removeChar ',' (removeChar 'R' tail)).reverse).reverse) =
      run.filter (fun d => d != ',') ++ '.' :: x :: y ::
        (List.dropWhile isSpaceCh (removeChar ',' (removeChar 'R' tail)).reverse).reverse := by
    rw [pyStrip_digits_core _ _ x y hdig hx hy, List.reverse_reverse, dropWhile_idem]
  unfold clean_currency
  rw [hR, hcomma, hstrip]
  have hres : pythonFloat (run.filter (fun d => d != ',') ++ '.' :: x :: y ::
        (List.dropWhile isSpaceCh (removeChar ',' (removeChar 'R' tail)).reverse).reverse) =
        none ∨
      ∃ q, pythonFloat (run.filter (fun d => d != ',') ++ '.' :: x :: y ::
        (List.dropWhile isSpaceCh (removeChar ',' (removeChar 'R' tail)).reverse).reverse) =
        some (PyFloat.finite q) ∧ 0 ≤ q := by
    cases hrf : run.filter (fun d => d != ',') with
    | nil =>
      rw [hrf] at hfix
      have h2 := pythonFloat_digitdot_head '.'
        (x :: y :: (List.dropWhile isSpaceCh (removeChar ',' (removeChar 'R' tail)).reverse).reverse)
        (by simpa using hfix) (Or.inr rfl)
      simpa using h2
    | cons rc rt =>
      have hrcd : rc.isDigit = true := by
        rw [hrf] at hdig
        exact hdig rc (List.mem_cons_self _ _)
      have h2 := pythonFloat_digitdot_head rc
        (rt ++ '.' :: x :: y ::
          (List.dropWhile isSpaceCh (removeChar ',' (removeChar 'R' tail)).reverse).reverse)
        (by rw [← List.cons_append, ← hrf]; exact hfix) (Or.inl hrcd)
      rw [List.cons_append]
      exact h2
  rcases hres with hnone | ⟨q, hq, hq0⟩
  · rw [hnone]
    exact ⟨0, rfl, le_rfl⟩
  · rw [hq]
    exact ⟨q, rfl, hq0⟩

theorem foldl_add_finite : ∀ (l : List PyFloat) (a : ℚ), 0 ≤ a →
    (∀ v ∈ l, ∃ q, v = PyFloat.finite q ∧ 0 ≤ q) →
    ∃ s, List.foldl PyFloat.add (PyFloat.finite a) l = PyFloat.finite s ∧ 0 ≤ s := by
  intro l
  induction l with
  | nil => intro a ha _; exact ⟨a, rfl, ha⟩
  | cons v t ih =>
    intro a ha hall
    obtain ⟨q, rfl, hq⟩ := hall v (List.mem_cons_self _ _)
    rw [List.foldl_cons]
    exact ih (a + q) (by positivity) (fun u hu => hall u (List.mem_cons_of_mem _ hu))

theorem sumPyF_finite_nonneg (l : List PyFloat)
    (h : ∀ v ∈ l, ∃ q, v = PyFloat.finite q ∧ 0 ≤ q) :
    ∃ s, sumPyF l = PyFloat.finite s ∧ 0 ≤ s :=
  foldl_add_finite l 0 le_rfl h

/-! ### Shape of the currency formatter -/

theorem digitChar_isDigit (k : ℕ) (h : k < 10) : (digitChar k).isDigit = true := by
  interval_cases k <;> decide

theorem mem_insertCommas : ∀ (l : Chars), ∀ c ∈ insertCommas l, c ∈ l ∨ c = ',' := by
  intro l
  induction l using insertCommas.induct with
  | case1 a b c d rest ih =>
    intro e he
    rw [insertCommas] at he
    rcases List.mem_cons.mp he with rfl | he2
    · exact Or.inl (List.mem_cons_self _ _)
    · rcases List.mem_cons.mp he2 with rfl | he3
      · exact Or.inl (by simp)
      · rcases List.mem_cons.mp he3 with rfl | he4
        · exact Or.inl (by simp)
        · rcases List.mem_cons.mp he4 with rfl | he5
          · exact Or.inr rfl
          · rcases ih e he5 with hm | hm
            · exact Or.inl (by simp [List.mem_cons.mp hm])
            · exact Or.inr hm
  | case2 l hl =>
    intro e he
    rw [insertCommas.eq_def] at he
    split at he
    · exact absurd rfl (hl _ _ _ _ _)
    · exact Or.inl he

theorem insertCommas_ne_nil : ∀ (l : Chars), l ≠ [] → insertCommas l ≠ [] := by
  intro l hne
  rw [insertCommas.eq_def]
  split
  · simp
  · exact hne

theorem groupedDigits_spec (m : ℕ) :
    groupedDigits m ≠ [] ∧ ∀ c ∈ groupedDigits m, digitsCommas c = true := by
  unfold groupedDigits
  split
  · exact ⟨by simp, by intro c hc; rcases List.mem_cons.mp hc with rfl | h2
                       · decide
                       · cases h2⟩
  · rename_i hm
    constructor
    · intro hcon
      rw [List.reverse_eq_nil_iff] at hcon
      refine insertCommas_ne_nil _ ?_ hcon
      simp [Nat.digits_ne_nil_iff_ne_zero, hm]
    · intro c hc
      rw [List.mem_reverse] at hc
      rcases mem_insertCommas _ c hc with hm2 | rfl
      · rw [List.mem_map] at hm2
        obtain ⟨d, hd, rfl⟩ := hm2
        have hlt : d < 10 := Nat.digits_lt_base (by norm_num) hd
        rw [digitsCommas, Bool.or_eq_true]
        exact Or.inl (digitChar_isDigit d hlt)
      · decide

theorem pad2ch_digits (k : ℕ) (h : k < 100) :
    ∃ u v, pad2ch k = [u, v] ∧ u.isDigit = true ∧ v.isDigit = true := by
  unfold pad2ch
  split
  · rename_i h10
    exact ⟨'0', digitChar k, rfl, by decide, digitChar_isDigit k h10⟩
  · rename_i h10
    exact ⟨digitChar (k / 10), digitChar (k % 10), rfl,
      digitChar_isDigit _ (by omega), digitChar_isDigit _ (Nat.mod_lt _ (by norm_num))⟩

theorem formatCurrency_shape (q : ℚ) (hq : 0 ≤ q) :
    fullCurrencyShape (formatCurrency (PyFloat.finite q)) = true := by
  unfold formatCurrency formatFin
  dsimp only
  rw [if_neg (not_lt.mpr hq)]
  obtain ⟨u, v, hpad, hu, hv⟩ :=
    pad2ch_digits ((rne (|q| * 100)).toNat % 100) (Nat.mod_lt _ (by norm_num))
  rw [hpad]
  obtain ⟨hne, helts⟩ := groupedDigits_spec ((rne (|q| * 100)).toNat / 100)
  obtain ⟨g0, gt, hgd⟩ := List.exists_cons_of_ne_nil hne
  rw [hgd]
  have hall : ∀ c ∈ (g0 :: gt) ++ '.' :: [u, v], isSpaceCh c = false := by
    intro c hc
    rw [List.mem_append] at hc
    rcases hc with hc | hc
    · rw [← hgd] at hc
      exact digitsCommas_not_space c (helts c hc)
    · rcases List.mem_cons.mp hc with heq | hc2
      · rw [heq]
        decide
      · rcases List.mem_cons.mp hc2 with heq | hc3
        · rw [heq]
          exact digit_not_space u hu
        · rcases List.mem_cons.mp hc3 with heq | hc4
          · rw [heq]
            exact digit_not_space v hv
          · cases hc4
  have hdrop : List.dropWhile isSpaceCh (' ' :: ((g0 :: gt) ++ '.' :: [u, v])) =
      (g0 :: gt) ++ '.' :: [u, v] := by
    rw [List.dropWhile_cons_of_pos (by decide)]
    exact dropWhile_of_all_neg isSpaceCh _ hall
  have hgdall : ∀ c ∈ g0 :: gt, digitsCommas c = true := by
    intro c hc
    rw [← hgd] at hc
    exact helts c hc
  have hdot : ∀ (c : Char) (t : Chars), ('.' :: [u, v] : Chars) = c :: t →
      digitsCommas c = false := by
    intro c t hct
    injection hct with h1 h2
    rw [← h1]
    decide
  unfold fullCurrencyShape
  split
  · rename_i rest heq
    injection heq with h1 h2
    rw [List.nil_append] at h2
    dsimp only
    rw [← h2, hdrop,
      takeWhile_append_all digitsCommas _ hdot _ hgdall,
      dropWhile_append_all digitsCommas _ hdot _ hgdall]
    split
    · rename_i w1 heq2
      exact List.noConfusion heq2
    · rename_i x y tl heq2 heq3
      injection heq3 with a1 a2
      injection a2 with b1 b2
      injection b2 with c1 c2
      rw [← b1, ← c1, ← c2, hu, hv]
      rfl
    · rename_i heq2 heq3
      exact absurd rfl (heq3 u v [])
  · rename_i hno
    exact ((hno (' ' :: ((g0 :: gt) ++ '.' :: [u, v])) rfl)).elim

/-- C7: for every employee group in the output, the data rows are followed
by a total row whose gross-remuneration string is the formatted sum of the
group's normalized gross values, and that string is entirely of the
`R #,###.##` currency shape (`R`, a space, comma-grouped digits, a dot and
exactly two decimal digits). -/
theorem C7_total_row_formatted_sum (raw : Option Chars) (n : Chars)
    (h : n ∈ uniqueKeep ((allData raw).map (fun row => row.employeeName))) :
    ∃ pre post,
      parse_payroll_data raw = pre ++ grpRows raw n ++ totalRow raw n :: post ∧
      (totalRow raw n).gross =
        formatCurrency (sumPyF ((grpRows raw n).map (fun row => clean_currency row.gross))) ∧
      fullCurrencyShape ((totalRow raw n).gross) = true := by
  obtain ⟨l1, l2, hsplit⟩ := List.append_of_mem h
  refine ⟨l1.flatMap (fun m => grpRows raw m ++ [totalRow raw m]),
    l2.flatMap (fun m => grpRows raw m ++ [totalRow raw m]), ?_, rfl, ?_⟩
  · rw [parse_unfold, hsplit, List.flatMap_append, List.flatMap_cons]
    simp [List.append_assoc]
  · have hmem : ∀ v ∈ (grpRows raw n).map (fun row => clean_currency row.gross),
        ∃ q, v = PyFloat.finite q ∧ 0 ≤ q := by
      intro v hv
      rw [List.mem_map] at hv
      obtain ⟨row, hrow, hveq⟩ := hv
      have hrow' : row ∈ allData raw := List.mem_of_mem_filter hrow
      have hcur : curLead row.gross = true := (allData_shapes raw row hrow').1
      obtain ⟨q, hq, hq0⟩ := curLead_clean_finite row.gross hcur
      exact ⟨q, by rw [← hveq, hq], hq0⟩
    obtain ⟨s, hs, hs0⟩ := sumPyF_finite_nonneg _ hmem
    show fullCurrencyShape (formatCurrency (sumPyF
      ((grpRows raw n).map (fun row => clean_currency row.gross)))) = true
    rw [hs]
    exact formatCurrency_shape s hs0

/-- C7 (witness): a concrete one-record group whose total row is
`R 1.00`, of the full currency shape. -/
theorem C7_witness :
    ∃ pre post,
      parse_payroll_data (some ("\"2024-01-31\",a,b,c,d,e,f,g,R 1.00,z".data)) =
        pre ++ grpRows (some ("\"2024-01-31\",a,b,c,d,e,f,g,R 1.00,z".data)) unknownEmployee ++
          totalRow (some ("\"2024-01-31\",a,b,c,d,e,f,g,R 1.00,z".data)) unknownEmployee :: post ∧
      (totalRow (some ("\"2024-01-31\",a,b,c,d,e,f,g,R 1.00,z".data)) unknownEmployee).gross =
        formatCurrency (sumPyF
          ((grpRows (some ("\"2024-01-31\",a,b,c,d,e,f,g,R 1.00,z".data)) unknownEmployee).map
            (fun row => clean_currency row.gross))) ∧
      fullCurrencyShape ((totalRow (some ("\"2024-01-31\",a,b,c,d,e,f,g,R 1.00,z".data))
        unknownEmployee).gross) = true :=
  C7_total_row_formatted_sum (some ("\"2024-01-31\",a,b,c,d,e,f,g,R 1.00,z".data))
    unknownEmployee (by decide)

end Extract
